import Mathlib

/-!
Verification of the revision-diff helper script `scripts/DiffUE.py`.

The script resolves, for an asset file tracked in a git repository, the last
committed revision and a local file holding that revision's content, and then
invokes an external diff tool on the old/new pair.  This file gives a shallow
embedding of the script's pure logic:

* directory trees are modelled by the inductive type `FSEntry`; a directory
  listing is a `List FSEntry` in the order the operating system enumerates it;
* filesystem paths are modelled as lists of path components (`List String`);
  rendered path strings use an explicit separator argument standing for
  `os.sep`;
* Python string operations are modelled by executable functions over
  `List Char` (`pydrop`, `pytake`, `splitlines`, `pystrip`, ...), matching
  Python's character-based slicing semantics;
* the effectful pipeline (`git` invocations, temp-file creation, the diff tool
  run) is modelled by functions that return the list of external events they
  perform (`Ev`) together with their result, with the outside world's responses
  supplied by a `World` record (captured command output, the diff tool's exit
  status, the name `tempfile.mkdtemp` returns, `os.path.isfile` answers).
-/

/- ## Python string primitives -/

/-- Python slicing `s[n:]` (character based). -/
def pydrop (n : Nat) (s : String) : String :=
  String.mk (s.data.drop n)

/-- Python slicing `s[:n]` (character based). -/
def pytake (n : Nat) (s : String) : String :=
  String.mk (s.data.take n)

/-- Boolean list-prefix test. -/
def charsPfx : List Char → List Char → Bool
  | [], _ => true
  | _ :: _, [] => false
  | a :: as, b :: bs => a == b && charsPfx as bs

/-- Boolean contiguous-sublist test. -/
def charsInfix (sub : List Char) : List Char → Bool
  | [] => sub.isEmpty
  | c :: rest => charsPfx sub (c :: rest) || charsInfix sub rest

/-- Python substring test `sub in s`. -/
def pyContains (s sub : String) : Bool :=
  charsInfix sub.data s.data

/-- Python `s.endswith(suffix)`. -/
def pyendswith (s sfx : String) : Bool :=
  charsPfx sfx.data.reverse s.data.reverse

/-- Whitespace characters stripped by Python's `str.strip()` (ASCII subset;
the script only ever strips `git log` output, which is ASCII). -/
def isPyWs (c : Char) : Bool :=
  c == ' ' || c == '\t' || c == '\n' || c == '\r' || c == '\x0b' || c == '\x0c'

/-- Python `s.strip()`. -/
def pystrip (s : String) : String :=
  String.mk (((s.data.dropWhile isPyWs).reverse.dropWhile isPyWs).reverse)

/-- Core of Python `str.splitlines` on `\n` / `\r\n` / `\r` line boundaries:
`acc` holds the (reversed) characters of the current line. -/
def splitlinesAux (acc : List Char) : List Char → List (List Char)
  | [] => if acc.isEmpty then [] else [acc.reverse]
  | '\r' :: '\n' :: rest => acc.reverse :: splitlinesAux [] rest
  | '\r' :: rest => acc.reverse :: splitlinesAux [] rest
  | '\n' :: rest => acc.reverse :: splitlinesAux [] rest
  | c :: rest => splitlinesAux (c :: acc) rest

/-- Python `s.splitlines()`. -/
def splitlines (s : String) : List String :=
  (splitlinesAux [] s.data).map String.mk

/-- Python `s.replace("\\", "/")`: a single-character replace is a
character-wise map. -/
def normalizeSeps (s : String) : String :=
  String.mk (s.data.map (fun c => if c == '\\' then '/' else c))

/- ## Path primitives (`os.path`) -/

/-- Joining path components with the separator (`"a" ++ sep ++ "b" ++ ...`). -/
def joinComps (sep : String) : List String → String
  | [] => ""
  | [c] => c
  | c :: cs => c ++ sep ++ joinComps sep cs

/-- Rendering of an absolute path given by its components. -/
def renderAbs (sep : String) (comps : List String) : String :=
  sep ++ joinComps sep comps

/-- Length of the common prefix of two component lists. -/
def commonPfxLen : List String → List String → Nat
  | a :: as, b :: bs => if a = b then 1 + commonPfxLen as bs else 0
  | _, _ => 0

/-- `os.path.relpath(target, root)` on normalized absolute component lists:
walk up from `root` to the common ancestor with `".."` segments, then down
to `target`; the result string uses the platform separator `sep`. -/
def os_relpath (sep : String) (root target : List String) : String :=
  let k := commonPfxLen root target
  let parts := List.replicate (root.length - k) ".." ++ target.drop k
  if parts.isEmpty then "." else joinComps sep parts

/-- Two-argument `os.path.join` (posixpath logic, with `sep` standing for the
platform separator): an absolute second argument wins; a separator is inserted
only when needed. -/
def os_join2 (sep a b : String) : String :=
  if charsPfx sep.data b.data then b
  else if a = "" || charsPfx sep.data.reverse a.data.reverse then a ++ b
  else a ++ sep ++ b

/-- `os.path.join(base, p1, p2, ...)`. -/
def os_path_join (sep base : String) (parts : List String) : String :=
  parts.foldl (fun acc p => os_join2 sep acc p) base

/-- Characters of the final path segment: everything after the last
separator character (`os.path.basename` on character lists). -/
def afterLastSep (sepc : Char) (cs : List Char) : List Char :=
  (cs.reverse.takeWhile (fun c => c != sepc)).reverse

/-- `os.path.basename` for a single-character separator. -/
def os_basename (sepc : Char) (p : String) : String :=
  String.mk (afterLastSep sepc p.data)

/-- Extension split of a bare file name, with CPython's `splitext` rule: the
extension starts at the last dot, except when every character before that dot
is itself a dot (so `".cshrc"` and `"..b"` have no extension). -/
def splitext_name (name : String) : String × String :=
  if (name.data.reverse.takeWhile (fun c => c != '.')).length == name.data.length then
    (name, "")
  else if (name.data.take (name.data.length -
      ((name.data.reverse.takeWhile (fun c => c != '.')).length + 1))).all
        (fun c => c == '.') then
    (name, "")
  else
    (String.mk (name.data.take (name.data.length -
       ((name.data.reverse.takeWhile (fun c => c != '.')).length + 1))),
     String.mk (name.data.drop (name.data.length -
       ((name.data.reverse.takeWhile (fun c => c != '.')).length + 1))))

/-- `os.path.splitext` for a single-character separator: the extension is the
extension of the basename, and the root is the path with that extension
removed. -/
def os_splitext (sepc : Char) (p : String) : String × String :=
  let ext := (splitext_name (os_basename sepc p)).2
  (String.mk (p.data.take (p.data.length - ext.data.length)), ext)

/- ## Directory trees -/

/-- A directory entry as observed through `os.scandir`: a name, and for a
directory also the listing of its children (in enumeration order). -/
inductive FSEntry where
  | file (name : String)
  | dir (name : String) (children : List FSEntry)

/-- The entry's name (`os.DirEntry.name`). -/
def FSEntry.name : FSEntry → String
  | .file n => n
  | .dir n _ => n

/-- The entry's directory test (`os.DirEntry.is_dir()`). -/
def FSEntry.isDirB : FSEntry → Bool
  | .file _ => false
  | .dir _ _ => true

/-- The entry's children (empty for a plain file). -/
def FSEntry.children : FSEntry → List FSEntry
  | .file _ => []
  | .dir _ cs => cs

mutual

/-- Size of a directory entry (for termination measures). -/
def sizeE : FSEntry → Nat
  | .file _ => 1
  | .dir _ cs => 1 + sizeL cs

/-- Total size of a directory listing. -/
def sizeL : List FSEntry → Nat
  | [] => 0
  | e :: es => sizeE e + sizeL es

end

/-- The listing of the directory reached from the listing `fs` of the
filesystem root by following the components of `path` (entering, at each step,
the first directory with the given name). -/
def entriesAt (fs : List FSEntry) : List String → List FSEntry
  | [] => fs
  | n :: rest =>
    match fs.find? (fun e => e.name == n && e.isDirB) with
    | some e => entriesAt e.children rest
    | none => []

/-- Measure of a worklist of directories still to scan. -/
def stackSize (st : List (List String × List FSEntry)) : Nat :=
  (st.map (fun x => 1 + sizeL x.2)).sum

/-- The worklist loop inside `find_entry_in_dir` (DiffUE.py, lines 25-42).
Python's `dirs_to_check.pop()` removes the *last* element, so the worklist is
kept here in reversed order: the head is the next directory popped.  Each
worklist item carries the directory's path together with its listing (on a
real filesystem, re-scanning the stored path yields exactly that listing).
At each directory: entries named `".git"` are dropped, the remaining
subdirectories are appended to the worklist (hence, once reversed, explored
newest-first), and if any remaining entry satisfies the predicate the first
such entry's path is returned. -/
def find_entry_in_dir_loop (pred : String → Bool → Bool) :
    List (List String × List FSEntry) → Option (List String)
  | [] => none
  | (dirPath, es) :: rest =>
    match (es.filter (fun e => e.name != ".git")).filter (fun e => pred e.name e.isDirB) with
    | m :: _ => some (dirPath ++ [m.name])
    | [] =>
      find_entry_in_dir_loop pred
        ((((es.filter (fun e => e.name != ".git")).filter (fun e => e.isDirB)).map
            (fun d => (dirPath ++ [d.name], d.children))).reverse ++ rest)
termination_by st => stackSize st
decreasing_by
  have hflt : ∀ (q : FSEntry → Bool) (l : List FSEntry), sizeL (l.filter q) ≤ sizeL l := by
    intro q l
    induction l with
    | nil => simp [sizeL]
    | cons e l ih =>
      by_cases hq : q e
      · simp [List.filter_cons, hq, sizeL]
        omega
      · simp [List.filter_cons, hq, sizeL]
        exact le_trans ih (Nat.le_add_left _ _)
  have hpush : ∀ (dp : List String) (l : List FSEntry), (∀ d ∈ l, d.isDirB = true) →
      stackSize (l.map (fun d => (dp ++ [d.name], d.children))) = sizeL l := by
    intro dp l
    induction l with
    | nil => intro _; simp [stackSize, sizeL]
    | cons d ds ih =>
      intro hall
      have hd : d.isDirB = true := hall d (by simp)
      have hds : ∀ x ∈ ds, x.isDirB = true := fun x hx => hall x (by simp [hx])
      cases d with
      | file n => simp [FSEntry.isDirB] at hd
      | dir n cs =>
        have ih2 := ih hds
        simp only [stackSize, List.map_cons, List.sum_cons, sizeL, sizeE,
          FSEntry.children] at ih2 ⊢
        omega
  have happ : ∀ (a b : List (List String × List FSEntry)),
      stackSize (a ++ b) = stackSize a + stackSize b := by
    intro a b; simp [stackSize]
  have hrev : ∀ (a : List (List String × List FSEntry)),
      stackSize a.reverse = stackSize a := by
    intro a; simp [stackSize, List.map_reverse, List.sum_reverse]
  rw [happ, hrev, hpush _ _ (fun d hd => (List.mem_filter.mp hd).2)]
  have h2b := hflt FSEntry.isDirB (es.filter (fun e => e.name != ".git"))
  have h3 := hflt (fun e => e.name != ".git") es
  simp only [stackSize, List.map_cons, List.sum_cons]
  omega

/-- `find_entry_in_dir(start_dir, predicate)` (DiffUE.py, lines 25-42): the
worklist starts with the single start directory. -/
def find_entry_in_dir (fs : List FSEntry) (pred : String → Bool → Bool)
    (start_dir : List String) : Option (List String) :=
  find_entry_in_dir_loop pred [(start_dir, entriesAt fs start_dir)]

/-- `find_entry_in_dir_up(start_dir, predicate)` (DiffUE.py, lines 45-59):
scan the current directory for an entry satisfying the predicate and return
the *containing* directory on a hit; otherwise strip the last path segment and
repeat.  Stripping segments of `path[0:last_index(path, os.sep)]` corresponds
to `List.dropLast` on the component list, and the loop's
`while path and last_slash_index > 0` guard makes the filesystem root itself
(empty component list) never scanned. -/
def find_entry_in_dir_up (fs : List FSEntry) (pred : String → Bool → Bool) :
    List String → Option (List String)
  | [] => none
  | n :: rest =>
    if (entriesAt fs (n :: rest)).any (fun e => pred e.name e.isDirB) then
      some (n :: rest)
    else find_entry_in_dir_up fs pred (n :: rest).dropLast
termination_by path => path.length
decreasing_by
  simp only [List.length_dropLast, List.length_cons]
  omega

/-- `find_git_root()` (DiffUE.py, lines 64-83): walk up from the working
directory until some directory contains an entry named `".git"`; `None`
models the `raise`. -/
def find_git_root (fs : List FSEntry) : List String → Option (List String)
  | [] => none
  | n :: rest =>
    if (entriesAt fs (n :: rest)).any (fun e => e.name == ".git") then
      some (n :: rest)
    else find_git_root fs (n :: rest).dropLast
termination_by cwd => cwd.length
decreasing_by
  simp only [List.length_dropLast, List.length_cons]
  omega

/-- The predicate of `get_project_path` (DiffUE.py, lines 112-113):
`entry.name.endswith(".uproject")`. -/
def uproject_entry : String → Bool → Bool :=
  fun name _ => pyendswith name ".uproject"

/-- `get_project_path(start_dir)` (DiffUE.py, lines 111-128): search downward
from `start_dir`; on failure fall back to the upward search, also from
`start_dir`; `none` models the `raise`. -/
def get_project_path (fs : List FSEntry) (start_dir : List String) :
    Option (List String) :=
  match find_entry_in_dir fs uproject_entry start_dir with
  | some path => some path
  | none => find_entry_in_dir_up fs uproject_entry start_dir

/-- Written from the spec's words for `FindProjectDescriptor` (§4.2): search
downward from `root`; if not found, fall back to `SearchUp` *from the current
working directory* with the same predicate.  Kept for comparison with
`get_project_path`, which is translated from the code. -/
def get_project_path_spec (fs : List FSEntry) (root cwd : List String) :
    Option (List String) :=
  match find_entry_in_dir fs uproject_entry root with
  | some path => some path
  | none => find_entry_in_dir_up fs uproject_entry cwd

mutual

/-- Deep removal of every entry named `".git"` from an entry's subtree. -/
def pruneE : FSEntry → FSEntry
  | .file n => .file n
  | .dir n cs => .dir n (pruneL cs)

/-- Deep removal of every entry named `".git"` from a directory listing. -/
def pruneL : List FSEntry → List FSEntry
  | [] => []
  | e :: es => if e.name == ".git" then pruneL es else pruneE e :: pruneL es

end

mutual

/-- Reference depth-first search: examine the (`".git"`-filtered) entries of
the current directory first; if none matches, descend into its subdirectories
in *reverse* listing order (the order induced by `list.pop()` on the Python
worklist), returning the first match found. -/
def search_dfs (pred : String → Bool → Bool) (dirPath : List String)
    (es : List FSEntry) : Option (List String) :=
  match (es.filter (fun e => e.name != ".git")).filter (fun e => pred e.name e.isDirB) with
  | m :: _ => some (dirPath ++ [m.name])
  | [] =>
    search_dfs_many pred
      ((((es.filter (fun e => e.name != ".git")).filter (fun e => e.isDirB)).map
          (fun d => (dirPath ++ [d.name], d.children))).reverse)
termination_by 2 * sizeL es + 2
decreasing_by
  have hflt : ∀ (q : FSEntry → Bool) (l : List FSEntry), sizeL (l.filter q) ≤ sizeL l := by
    intro q l
    induction l with
    | nil => simp [sizeL]
    | cons e l ih =>
      by_cases hq : q e
      · simp [List.filter_cons, hq, sizeL]
        omega
      · simp [List.filter_cons, hq, sizeL]
        exact le_trans ih (Nat.le_add_left _ _)
  have hpush : ∀ (dp : List String) (l : List FSEntry), (∀ d ∈ l, d.isDirB = true) →
      stackSize (l.map (fun d => (dp ++ [d.name], d.children))) = sizeL l := by
    intro dp l
    induction l with
    | nil => intro _; simp [stackSize, sizeL]
    | cons d ds ih =>
      intro hall
      have hd : d.isDirB = true := hall d (by simp)
      have hds : ∀ x ∈ ds, x.isDirB = true := fun x hx => hall x (by simp [hx])
      cases d with
      | file n => simp [FSEntry.isDirB] at hd
      | dir n cs =>
        have ih2 := ih hds
        simp only [stackSize, List.map_cons, List.sum_cons, sizeL, sizeE,
          FSEntry.children] at ih2 ⊢
        omega
  have hrev : ∀ (a : List (List String × List FSEntry)),
      stackSize a.reverse = stackSize a := by
    intro a; simp [stackSize, List.map_reverse, List.sum_reverse]
  rw [hrev, hpush _ _ (fun d hd => (List.mem_filter.mp hd).2)]
  have h2b := hflt FSEntry.isDirB (es.filter (fun e => e.name != ".git"))
  have h3 := hflt (fun e => e.name != ".git") es
  omega

/-- First hit of `search_dfs` over a list of directories, in order. -/
def search_dfs_many (pred : String → Bool → Bool) :
    List (List String × List FSEntry) → Option (List String)
  | [] => none
  | (dirPath, cs) :: rest =>
    match search_dfs pred dirPath cs with
    | some r => some r
    | none => search_dfs_many pred rest
termination_by st => 2 * stackSize st + 1
decreasing_by
  all_goals simp only [stackSize, List.map_cons, List.sum_cons]
  all_goals omega

end

/- ## The effectful pipeline -/

/-- External events performed by the pipeline, in order: process invocations
(`run_cmd`, `run_cmd_capture`, `run_cmd_capture_blob`, DiffUE.py lines
144-160; all are run with the repository root as working directory, which is
not modelled further) and filesystem effects. -/
inductive Ev where
  | runTool (args : List String)
  | runCapture (args : List String)
  | runCaptureBlob (args : List String)
  | mkdtemp (dir : String)
  | writeFile (path : String) (contents : List Nat)
  | isFileCheck (path : String)
  | unlink (path : String)
deriving DecidableEq

/-- Fatal outcomes of the pipeline (each a `raise`, or a non-zero exit of the
diff tool surfaced by `check=True`). -/
inductive Err where
  | noHistory
  | configMissing
  | oidMissing
  | objectNotFound
  | toolFailed
deriving DecidableEq

/-- Responses of the outside world to the pipeline's requests: the platform
separator `os.sep`, each git command's captured output, the blob bytes
returned by `git show`, the answers of `os.path.isfile`, the diff tool's
success, and the directory name `tempfile.mkdtemp()` returns. -/
structure World where
  sep : String
  logOutput : String
  lfsListOutput : String
  lfsEnvOutput : String
  oidOutput : String
  blob : List Nat
  fileExists : String → Bool
  diffOk : Bool
  tmpDir : String

/-- `get_git_relative_asset_path(git_root, asset_path)` (DiffUE.py, lines
166-167): `os.path.relpath` followed by `.replace("\\", "/")`. -/
def get_git_relative_asset_path (sep : String) (git_root asset_path : List String) :
    String :=
  normalizeSeps (os_relpath sep git_root asset_path)

/-- `git_find_last_revision(git_root, file_path)` (DiffUE.py, lines 170-180):
run `git log --format=%h -n 1 file_path`, strip the output, and fail (the
`raise`, modelled by `none`) when the stripped output is empty. -/
def git_find_last_revision (w : World) (file_path : String) :
    List Ev × Option String :=
  ([Ev.runCapture ["git", "log", "--format=%h", "-n", "1", file_path]],
   if pystrip w.logOutput = "" then none else some (pystrip w.logOutput))

/-- `git_download_asset_revision(git_root, asset_path, revision, tmp_path)`
(DiffUE.py, lines 183-189): run `git show revision:rel_path` and write the
captured bytes to `tmp_path`. -/
def git_download_asset_revision (w : World) (git_root asset_path : List String)
    (revision : String) (tmp_path : String) : List Ev :=
  [Ev.runCaptureBlob ["git", "show",
     revision ++ ":" ++ get_git_relative_asset_path w.sep git_root asset_path],
   Ev.writeFile tmp_path w.blob]

/-- `git_is_lfs(git_root, asset_path)` (DiffUE.py, lines 192-197): list the
LFS-tracked files, strip the 13-character prefix of each listing line
(`file[13:]`), and test exact membership of the normalized repo-relative
path. -/
def git_is_lfs (w : World) (git_root asset_path : List String) : List Ev × Bool :=
  ([Ev.runCapture ["git", "lfs", "ls-files"]],
   ((splitlines w.lfsListOutput).map (fun l => pydrop 13 l)).contains
     (get_git_relative_asset_path w.sep git_root asset_path))

/-- `get_asset_temp_path(asset_path, revision)` (DiffUE.py, lines 131-139):
create a fresh temporary directory and form
`<tmp_dir>/<base>_<revision><ext>` from `os.path.splitext` and
`os.path.basename` of the asset path. -/
def get_asset_temp_path (w : World) (asset_path : List String) (revision : String) :
    List Ev × String :=
  ([Ev.mkdtemp w.tmpDir],
   let sepc := match w.sep.data with | c :: _ => c | [] => '/'
   let name_parts := os_splitext sepc (renderAbs w.sep asset_path)
   let asset_base_name := os_basename sepc name_parts.1
   os_join2 w.sep w.tmpDir (asset_base_name ++ "_" ++ revision ++ name_parts.2))

/-- `create_diff_command_parts(ue_bin_path, project_path, asset_path,
second_asset_path)` (DiffUE.py, lines 202-206); the second path is appended
only when truthy (non-empty). -/
def create_diff_command_parts (ue_bin_path project_path asset_path : String)
    (second_asset_path : Option String) : List String :=
  [ue_bin_path, project_path, "-diff", asset_path] ++
    (match second_asset_path with
     | some s => if s = "" then [] else [s]
     | none => [])

/-- The `LocalMediaDir=`-line extraction of `diff_lfs` (DiffUE.py, lines
211-213): each line containing `"LocalMediaDir="` with its first 14
characters stripped. -/
def lfs_media_dir_matches (envOutput : String) : List String :=
  ((splitlines envOutput).filter (fun l => pyContains l "LocalMediaDir=")).map
    (fun l => pydrop 14 l)

/-- The `oid sha256:`-line extraction of `diff_lfs` (DiffUE.py, lines
222-225): each line containing `"oid sha256:"` with its first 11 characters
stripped. -/
def asset_oid_matches (oidOutput : String) : List String :=
  ((splitlines oidOutput).filter (fun l => pyContains l "oid sha256:")).map
    (fun l => pydrop 11 l)

/-- `diff_lfs(git_root, asset_path, revision, ue_bin_path, project_path)`
(DiffUE.py, lines 209-244): extract the LFS media directory and the asset's
object id, compute the object's fan-out path
`join(media_dir, oid[0:2], oid[2:4], oid)`, require it to be a regular file,
and run the diff tool on it against the working-copy asset. -/
def diff_lfs (w : World) (git_root asset_path : List String)
    (revision ue_bin_path project_path : String) : List Ev × Option Err :=
  match lfs_media_dir_matches w.lfsEnvOutput with
  | [] => ([Ev.runCapture ["git", "lfs", "env"]], some Err.configMissing)
  | lfs_media_dir :: _ =>
    let catCmd := Ev.runCapture ["git", "cat-file", "-p",
      revision ++ ":" ++ get_git_relative_asset_path w.sep git_root asset_path]
    match asset_oid_matches w.oidOutput with
    | [] => ([Ev.runCapture ["git", "lfs", "env"], catCmd], some Err.oidMissing)
    | asset_oid :: _ =>
      let left_asset_path := os_path_join w.sep lfs_media_dir
        [pytake 2 asset_oid, pytake 2 (pydrop 2 asset_oid), asset_oid]
      if w.fileExists left_asset_path then
        ([Ev.runCapture ["git", "lfs", "env"], catCmd,
          Ev.isFileCheck left_asset_path,
          Ev.runTool (create_diff_command_parts ue_bin_path project_path
            left_asset_path (some (renderAbs w.sep asset_path)))],
         if w.diffOk then none else some Err.toolFailed)
      else
        ([Ev.runCapture ["git", "lfs", "env"], catCmd,
          Ev.isFileCheck left_asset_path], some Err.objectNotFound)

/-- `diff_normal(git_root, asset_path, revision, ue_bin_path, project_path)`
(DiffUE.py, lines 247-254): materialize the old revision into a temp file,
run the diff tool on it against the working-copy asset, and - only on the
tool's success, since `run_cmd` raises on a non-zero exit - `os.unlink` the
temp file. -/
def diff_normal (w : World) (git_root asset_path : List String)
    (revision ue_bin_path project_path : String) : List Ev × Option Err :=
  let tp := get_asset_temp_path w asset_path revision
  let downloadEvs := git_download_asset_revision w git_root asset_path revision tp.2
  let toolEv := Ev.runTool (create_diff_command_parts ue_bin_path project_path
    tp.2 (some (renderAbs w.sep asset_path)))
  if w.diffOk then
    (tp.1 ++ downloadEvs ++ [toolEv, Ev.unlink tp.2], none)
  else
    (tp.1 ++ downloadEvs ++ [toolEv], some Err.toolFailed)

/-- The resolution part of `main()` (DiffUE.py, lines 277-289), after the
anchors have been located: compute `git_relative_asset_path` by
`os.path.relpath` alone (line 281, with *no* separator normalization), find
the last revision with it, classify the storage mode, and dispatch to
`diff_lfs` or `diff_normal`. -/
def main_run (w : World) (git_root asset_path : List String)
    (ue_bin_path project_path : String) : List Ev × Option Err :=
  let git_relative_asset_path := os_relpath w.sep git_root asset_path
  let rev := git_find_last_revision w git_relative_asset_path
  match rev.2 with
  | none => (rev.1, some Err.noHistory)
  | some revision =>
    let lfs := git_is_lfs w git_root asset_path
    let tail :=
      if lfs.2 then diff_lfs w git_root asset_path revision ue_bin_path project_path
      else diff_normal w git_root asset_path revision ue_bin_path project_path
    (rev.1 ++ lfs.1 ++ tail.1, tail.2)

/-- Whether `path` exists on disk after the events `evs` ran against a state
in which none of the pipeline-created paths existed yet. -/
def existsAfter (evs : List Ev) (path : String) : Bool :=
  evs.foldl
    (fun b e =>
      match e with
      | Ev.mkdtemp d => if d = path then true else b
      | Ev.writeFile p _ => if p = path then true else b
      | Ev.unlink p => if p = path then false else b
      | _ => b)
    false

/-- The bytes a read of `path` yields after the events `evs` (the last write
wins; an `unlink` removes the file). -/
def readAfter (evs : List Ev) (path : String) : Option (List Nat) :=
  evs.foldl
    (fun acc e =>
      match e with
      | Ev.writeFile p c => if p = path then some c else acc
      | Ev.unlink p => if p = path then none else acc
      | _ => acc)
    none

/-- First-success choice on options (the shape of `if not path: path = ...`
fallbacks in the script). -/
def orelse {α : Type} (a b : Option α) : Option α :=
  match a with
  | some x => some x
  | none => b

/- ## General lemmas about the directory searches -/

theorem sizeL_filter_le (p : FSEntry → Bool) (es : List FSEntry) :
    sizeL (es.filter p) ≤ sizeL es := by
  induction es with
  | nil => simp [sizeL]
  | cons e es ih =>
    by_cases h : p e
    · simp [List.filter_cons, h, sizeL]
      omega
    · simp [List.filter_cons, h, sizeL]
      exact le_trans ih (Nat.le_add_left _ _)

theorem stackSize_append (a b : List (List String × List FSEntry)) :
    stackSize (a ++ b) = stackSize a + stackSize b := by
  simp [stackSize]

theorem stackSize_reverse (a : List (List String × List FSEntry)) :
    stackSize a.reverse = stackSize a := by
  simp [stackSize, List.map_reverse, List.sum_reverse]

theorem stackSize_push (dirPath : List String) (ds : List FSEntry)
    (hall : ∀ d ∈ ds, d.isDirB = true) :
    stackSize (ds.map (fun d => (dirPath ++ [d.name], d.children))) = sizeL ds := by
  induction ds with
  | nil => simp [stackSize, sizeL]
  | cons d ds ih =>
    have hd : d.isDirB = true := hall d (by simp)
    have hds : ∀ d' ∈ ds, d'.isDirB = true := fun d' h => hall d' (by simp [h])
    cases d with
    | file n => simp [FSEntry.isDirB] at hd
    | dir n cs =>
      have ih2 := ih hds
      simp only [stackSize, List.map_cons, List.sum_cons, sizeL, sizeE,
        FSEntry.children] at ih2 ⊢
      omega

theorem stackSize_cons (dirPath : List String) (es : List FSEntry)
    (st : List (List String × List FSEntry)) :
    stackSize ((dirPath, es) :: st) = 1 + sizeL es + stackSize st := by
  simp [stackSize]

theorem stackSize_pushed_le (dirPath : List String) (es : List FSEntry) :
    stackSize ((((es.filter (fun e => e.name != ".git")).filter (fun e => e.isDirB)).map
        (fun d => (dirPath ++ [d.name], d.children))).reverse) ≤ sizeL es := by
  rw [stackSize_reverse,
    stackSize_push _ _ (fun d hd => (List.mem_filter.mp hd).2)]
  exact le_trans (sizeL_filter_le _ _) (sizeL_filter_le _ _)

theorem loop_nil (pred : String → Bool → Bool) :
    find_entry_in_dir_loop pred [] = none := by
  rw [find_entry_in_dir_loop.eq_def]

theorem loop_cons (pred : String → Bool → Bool) (dirPath : List String)
    (es : List FSEntry) (rest : List (List String × List FSEntry)) :
    find_entry_in_dir_loop pred ((dirPath, es) :: rest) =
      match (es.filter (fun e => e.name != ".git")).filter (fun e => pred e.name e.isDirB) with
      | m :: _ => some (dirPath ++ [m.name])
      | [] =>
        find_entry_in_dir_loop pred
          ((((es.filter (fun e => e.name != ".git")).filter (fun e => e.isDirB)).map
              (fun d => (dirPath ++ [d.name], d.children))).reverse ++ rest) := by
  rw [find_entry_in_dir_loop.eq_def]

theorem many_nil (pred : String → Bool → Bool) :
    search_dfs_many pred [] = none := by
  rw [search_dfs_many.eq_def]

theorem many_cons (pred : String → Bool → Bool) (dirPath : List String)
    (cs : List FSEntry) (rest : List (List String × List FSEntry)) :
    search_dfs_many pred ((dirPath, cs) :: rest) =
      match search_dfs pred dirPath cs with
      | some r => some r
      | none => search_dfs_many pred rest := by
  rw [search_dfs_many.eq_def]

/-- Processing a worklist `s1 ++ s2` first exhausts `s1` (and everything it
pushes) before touching `s2`: the loop distributes over append as a
first-success choice. -/
theorem loop_append_bounded :
    ∀ (n : Nat) (pred : String → Bool → Bool)
      (s1 s2 : List (List String × List FSEntry)), stackSize s1 ≤ n →
      find_entry_in_dir_loop pred (s1 ++ s2) =
        orelse (find_entry_in_dir_loop pred s1) (find_entry_in_dir_loop pred s2) := by
  intro n
  induction n with
  | zero =>
    intro pred s1 s2 h
    cases s1 with
    | nil => simp [loop_nil, orelse]
    | cons x tl =>
      obtain ⟨dirPath, es⟩ := x
      rw [stackSize_cons] at h; omega
  | succ n ih =>
    intro pred s1 s2 h
    cases s1 with
    | nil => simp [loop_nil, orelse]
    | cons x tl =>
      obtain ⟨dirPath, es⟩ := x
      rw [List.cons_append, loop_cons, loop_cons]
      cases hm : (es.filter (fun e => e.name != ".git")).filter
          (fun e => pred e.name e.isDirB) with
      | cons m ms => simp only [orelse]
      | nil =>
        rw [← List.append_assoc]
        have h1 := stackSize_pushed_le dirPath es
        rw [stackSize_cons] at h
        apply ih
        rw [stackSize_append]
        omega

theorem loop_append (pred : String → Bool → Bool)
    (s1 s2 : List (List String × List FSEntry)) :
    find_entry_in_dir_loop pred (s1 ++ s2) =
      orelse (find_entry_in_dir_loop pred s1) (find_entry_in_dir_loop pred s2) :=
  loop_append_bounded (stackSize s1) pred s1 s2 le_rfl

/-- The worklist loop computes exactly the reference depth-first search
chained over the worklist items. -/
theorem loop_eq_many_bounded :
    ∀ (n : Nat) (pred : String → Bool → Bool)
      (st : List (List String × List FSEntry)), stackSize st ≤ n →
      find_entry_in_dir_loop pred st = search_dfs_many pred st := by
  intro n
  induction n with
  | zero =>
    intro pred st h
    cases st with
    | nil => rw [loop_nil, many_nil]
    | cons x tl =>
      obtain ⟨dirPath, es⟩ := x
      rw [stackSize_cons] at h; omega
  | succ n ih =>
    intro pred st h
    cases st with
    | nil => rw [loop_nil, many_nil]
    | cons x tl =>
      obtain ⟨dirPath, es⟩ := x
      rw [loop_cons, many_cons, search_dfs.eq_def]
      cases hm : (es.filter (fun e => e.name != ".git")).filter
          (fun e => pred e.name e.isDirB) with
      | cons m ms => simp only
      | nil =>
        have h1 := stackSize_pushed_le dirPath es
        rw [stackSize_cons] at h
        rw [loop_append, ih pred _ (by omega), ih pred tl (by omega)]
        cases hq : search_dfs_many pred
            ((((es.filter (fun e => e.name != ".git")).filter (fun e => e.isDirB)).map
                (fun d => (dirPath ++ [d.name], d.children))).reverse) <;>
          simp [orelse, hq]

theorem loop_eq_many (pred : String → Bool → Bool)
    (st : List (List String × List FSEntry)) :
    find_entry_in_dir_loop pred st = search_dfs_many pred st :=
  loop_eq_many_bounded (stackSize st) pred st le_rfl

theorem pruneE_name (e : FSEntry) : (pruneE e).name = e.name := by
  cases e <;> simp [pruneE, FSEntry.name]

theorem pruneE_isDirB (e : FSEntry) : (pruneE e).isDirB = e.isDirB := by
  cases e <;> simp [pruneE, FSEntry.isDirB]

theorem pruneE_children (e : FSEntry) : (pruneE e).children = pruneL e.children := by
  cases e <;> simp [pruneE, pruneL, FSEntry.children]

theorem pruneL_eq (es : List FSEntry) :
    pruneL es = (es.filter (fun e => e.name != ".git")).map pruneE := by
  induction es with
  | nil => simp [pruneL]
  | cons e es ih =>
    by_cases h : e.name = ".git"
    · simp [pruneL, h, List.filter_cons, ih]
    · simp [pruneL, h, List.filter_cons, ih]

theorem filter_map_pruneE (q : FSEntry → Bool) (hq : ∀ e, q (pruneE e) = q e)
    (l : List FSEntry) :
    (l.map pruneE).filter q = (l.filter q).map pruneE := by
  rw [List.filter_map]
  congr 1
  apply List.filter_congr
  intro e _
  exact hq e

theorem pruneL_filter_git (es : List FSEntry) :
    (pruneL es).filter (fun e => e.name != ".git") = pruneL es := by
  apply List.filter_eq_self.mpr
  intro e he
  rw [pruneL_eq] at he
  obtain ⟨a, ha, rfl⟩ := List.mem_map.mp he
  rw [bne_iff_ne, pruneE_name]
  have h2 := (List.mem_filter.mp ha).2
  rw [bne_iff_ne] at h2
  exact h2

/-- Deleting the `".git"` subtrees everywhere in the worklist does not change
the search's result: the loop never looks inside them. -/
theorem loop_prune_bounded :
    ∀ (n : Nat) (pred : String → Bool → Bool)
      (st : List (List String × List FSEntry)), stackSize st ≤ n →
      find_entry_in_dir_loop pred (st.map (fun x => (x.1, pruneL x.2))) =
        find_entry_in_dir_loop pred st := by
  intro n
  induction n with
  | zero =>
    intro pred st h
    cases st with
    | nil => simp [loop_nil]
    | cons x tl =>
      obtain ⟨dirPath, es⟩ := x
      rw [stackSize_cons] at h; omega
  | succ n ih =>
    intro pred st h
    cases st with
    | nil => simp [loop_nil]
    | cons x tl =>
      obtain ⟨dirPath, es⟩ := x
      simp only [List.map_cons]
      rw [loop_cons, loop_cons]
      have hfg : (pruneL es).filter (fun e => e.name != ".git")
          = (es.filter (fun e => e.name != ".git")).map pruneE := by
        rw [pruneL_filter_git, pruneL_eq]
      have hm : ((pruneL es).filter (fun e => e.name != ".git")).filter
            (fun e => pred e.name e.isDirB)
          = ((es.filter (fun e => e.name != ".git")).filter
              (fun e => pred e.name e.isDirB)).map pruneE := by
        rw [hfg, filter_map_pruneE]
        intro e; rw [pruneE_name, pruneE_isDirB]
      cases hmr : (es.filter (fun e => e.name != ".git")).filter
          (fun e => pred e.name e.isDirB) with
      | cons m ms =>
        rw [hmr, List.map_cons] at hm
        rw [hm]
        simp [pruneE_name]
      | nil =>
        rw [hmr, List.map_nil] at hm
        rw [hm]
        show find_entry_in_dir_loop pred
            (((((pruneL es).filter (fun e => e.name != ".git")).filter
                (fun e => e.isDirB)).map
                  (fun d => (dirPath ++ [d.name], d.children))).reverse ++
              tl.map (fun x => (x.1, pruneL x.2)))
          = find_entry_in_dir_loop pred
            ((((es.filter (fun e => e.name != ".git")).filter (fun e => e.isDirB)).map
                (fun d => (dirPath ++ [d.name], d.children))).reverse ++ tl)
        have hd : ((pruneL es).filter (fun e => e.name != ".git")).filter
              (fun e => e.isDirB)
            = ((es.filter (fun e => e.name != ".git")).filter (fun e => e.isDirB)).map
                pruneE := by
          rw [hfg, filter_map_pruneE]
          intro e; rw [pruneE_isDirB]
        rw [hd, List.map_map]
        have hfun : ((fun d : FSEntry => (dirPath ++ [d.name], d.children)) ∘ pruneE)
            = ((fun x : List String × List FSEntry => (x.1, pruneL x.2)) ∘
                (fun d : FSEntry => (dirPath ++ [d.name], d.children))) := by
          funext d
          simp [Function.comp, pruneE_name, pruneE_children]
        rw [hfun, ← List.map_map, ← List.map_reverse, ← List.map_append]
        apply ih
        have h1 := stackSize_pushed_le dirPath es
        rw [stackSize_cons] at h
        rw [stackSize_append]
        omega

theorem loop_prune (pred : String → Bool → Bool)
    (st : List (List String × List FSEntry)) :
    find_entry_in_dir_loop pred (st.map (fun x => (x.1, pruneL x.2))) =
      find_entry_in_dir_loop pred st :=
  loop_prune_bounded (stackSize st) pred st le_rfl

/-- Any path the worklist loop returns ends in the name of an entry that
survived the `".git"` filter. -/
theorem loop_last_bounded :
    ∀ (n : Nat) (pred : String → Bool → Bool)
      (st : List (List String × List FSEntry)) (p : List String),
      stackSize st ≤ n → find_entry_in_dir_loop pred st = some p →
      p.getLast? ≠ some ".git" := by
  intro n
  induction n with
  | zero =>
    intro pred st p h hs
    cases st with
    | nil => rw [loop_nil] at hs; simp at hs
    | cons x tl =>
      obtain ⟨dirPath, es⟩ := x
      rw [stackSize_cons] at h; omega
  | succ n ih =>
    intro pred st p h hs
    cases st with
    | nil => rw [loop_nil] at hs; simp at hs
    | cons x tl =>
      obtain ⟨dirPath, es⟩ := x
      rw [loop_cons] at hs
      cases hmr : (es.filter (fun e => e.name != ".git")).filter
          (fun e => pred e.name e.isDirB) with
      | cons m ms =>
        rw [hmr] at hs
        simp only [Option.some.injEq] at hs
        rw [← hs, List.getLast?_concat]
        have hmm : m ∈ (es.filter (fun e => e.name != ".git")).filter
            (fun e => pred e.name e.isDirB) := by
          rw [hmr]; exact List.mem_cons_self m ms
        have h2 := (List.mem_filter.mp (List.mem_filter.mp hmm).1).2
        rw [bne_iff_ne] at h2
        intro hcontra
        exact h2 (Option.some.inj hcontra)
      | nil =>
        rw [hmr] at hs
        have h1 := stackSize_pushed_le dirPath es
        rw [stackSize_cons] at h
        refine ih pred _ p ?_ hs
        rw [stackSize_append]
        omega

/- ## Lemmas about path strings -/

theorem afterLastSep_append (sepc : Char) (xs ys : List Char) :
    afterLastSep sepc (xs ++ sepc :: ys) = afterLastSep sepc ys := by
  unfold afterLastSep
  have hrev : (xs ++ sepc :: ys).reverse = ys.reverse ++ (sepc :: xs.reverse) := by
    simp
  rw [hrev, List.takeWhile_append]
  have hstop : List.takeWhile (fun c => c != sepc) (sepc :: xs.reverse) = [] := by
    simp [List.takeWhile_cons]
  by_cases hall : (List.takeWhile (fun c => c != sepc) ys.reverse).length
      = ys.reverse.length
  · rw [if_pos hall, hstop, List.append_nil,
      (List.takeWhile_prefix _).eq_of_length hall]
  · rw [if_neg hall]

theorem afterLastSep_no_sep (sepc : Char) (cs : List Char)
    (h : ∀ c ∈ cs, c ≠ sepc) : afterLastSep sepc cs = cs := by
  unfold afterLastSep
  have : List.takeWhile (fun c => c != sepc) cs.reverse = cs.reverse := by
    apply List.takeWhile_eq_self_iff.mpr
    intro c hc
    rw [bne_iff_ne]
    exact h c (List.mem_reverse.mp hc)
  rw [this, List.reverse_reverse]

theorem joinComps_snoc (comps : List String) (nm : String) (h : comps ≠ []) :
    ∃ pre, (joinComps "/" (comps ++ [nm])).data = pre ++ '/' :: nm.data := by
  induction comps with
  | nil => exact absurd rfl h
  | cons c cs ih =>
    cases cs with
    | nil =>
      refine ⟨c.data, ?_⟩
      show (joinComps "/" [c, nm]).data = _
      have hslash : ("/" : String).data = ['/'] := rfl
      simp [joinComps, String.data_append, hslash]
    | cons c2 cs2 =>
      obtain ⟨pre, hp⟩ := ih (by simp)
      refine ⟨c.data ++ '/' :: pre, ?_⟩
      show (joinComps "/" (c :: (c2 :: cs2 ++ [nm]))).data = _
      have hstep : joinComps "/" (c :: (c2 :: cs2 ++ [nm]))
          = c ++ "/" ++ joinComps "/" (c2 :: cs2 ++ [nm]) := by
        rfl
      have hslash : ("/" : String).data = ['/'] := rfl
      rw [hstep, String.data_append, String.data_append, hslash, hp]
      simp

theorem renderAbs_snoc (comps : List String) (nm : String) :
    ∃ pre, (renderAbs "/" (comps ++ [nm])).data = pre ++ '/' :: nm.data := by
  cases comps with
  | nil =>
    refine ⟨[], ?_⟩
    have hslash : ("/" : String).data = ['/'] := rfl
    show (("/" : String) ++ joinComps "/" [nm]).data = _
    rw [String.data_append, hslash]
    rfl
  | cons c cs =>
    obtain ⟨pre, hp⟩ := joinComps_snoc (c :: cs) nm (by simp)
    refine ⟨'/' :: pre, ?_⟩
    show (("/" : String) ++ joinComps "/" (c :: cs ++ [nm])).data = _
    have hslash : ("/" : String).data = ['/'] := rfl
    rw [String.data_append, hslash, hp]
    rfl

theorem splitext_name_spec (nm : String) :
    (splitext_name nm).1.data ++ (splitext_name nm).2.data = nm.data ∧
    (splitext_name nm).2.data.length ≤ nm.data.length ∧
    (splitext_name nm).1.data
      = nm.data.take (nm.data.length - (splitext_name nm).2.data.length) := by
  by_cases h1 : (((nm.data.reverse.takeWhile (fun c => c != '.')).length
      == nm.data.length) = true)
  · have hs : splitext_name nm = (nm, "") := by
      unfold splitext_name
      rw [if_pos h1]
    rw [hs]
    have hempty : ("" : String).data = ([] : List Char) := rfl
    simp [hempty, List.take_length]
  · by_cases h2 : (((nm.data.take (nm.data.length -
        ((nm.data.reverse.takeWhile (fun c => c != '.')).length + 1))).all
          (fun c => c == '.')) = true)
    · have hs : splitext_name nm = (nm, "") := by
        unfold splitext_name
        rw [if_neg h1, if_pos h2]
      rw [hs]
      have hempty : ("" : String).data = ([] : List Char) := rfl
      simp [hempty, List.take_length]
    · have hs : splitext_name nm =
          (String.mk (nm.data.take (nm.data.length -
            ((nm.data.reverse.takeWhile (fun c => c != '.')).length + 1))),
           String.mk (nm.data.drop (nm.data.length -
            ((nm.data.reverse.takeWhile (fun c => c != '.')).length + 1)))) := by
        unfold splitext_name
        rw [if_neg h1, if_neg h2]
      rw [hs]
      refine ⟨List.take_append_drop _ _, ?_, ?_⟩
      · show (List.drop _ nm.data).length ≤ nm.data.length
        rw [List.length_drop]
        omega
      · show List.take _ nm.data
            = List.take (nm.data.length - (List.drop _ nm.data).length) nm.data
        rw [List.length_drop]
        congr 1
        omega

theorem basename_renderAbs (comps : List String) (nm : String)
    (h : ∀ c ∈ nm.data, c ≠ '/') :
    os_basename '/' (renderAbs "/" (comps ++ [nm])) = nm := by
  obtain ⟨pre, hp⟩ := renderAbs_snoc comps nm
  unfold os_basename
  rw [hp, afterLastSep_append, afterLastSep_no_sep _ _ h]

theorem get_asset_temp_path_name (w : World) (comps : List String)
    (nm revision : String) (hsep : w.sep = "/") (hnm : ∀ c ∈ nm.data, c ≠ '/') :
    (get_asset_temp_path w (comps ++ [nm]) revision).2 =
      os_join2 "/" w.tmpDir
        ((splitext_name nm).1 ++ "_" ++ revision ++ (splitext_name nm).2) := by
  obtain ⟨hcat, hlen, htake⟩ := splitext_name_spec nm
  obtain ⟨pre, hp⟩ := renderAbs_snoc comps nm
  have hdata : ("/" : String).data = ['/'] := rfl
  have hbase : os_basename '/' (renderAbs "/" (comps ++ [nm])) = nm :=
    basename_renderAbs comps nm hnm
  have ha : (os_splitext '/' (renderAbs "/" (comps ++ [nm]))).2
      = (splitext_name nm).2 := by
    simp only [os_splitext, hbase]
  have hp1 : (os_splitext '/' (renderAbs "/" (comps ++ [nm]))).1
      = String.mk ((pre ++ ['/']) ++
          nm.data.take (nm.data.length - (splitext_name nm).2.data.length)) := by
    simp only [os_splitext, hbase]
    congr 1
    rw [hp]
    have harr : pre ++ '/' :: nm.data = (pre ++ ['/']) ++ nm.data := by simp
    rw [harr]
    have hlp : ((pre ++ ['/']) ++ nm.data).length
          - (splitext_name nm).2.data.length
        = (pre ++ ['/']).length
          + (nm.data.length - (splitext_name nm).2.data.length) := by
      simp only [List.length_append]
      omega
    rw [hlp, List.take_append]
  have hbase1 : os_basename '/' (os_splitext '/' (renderAbs "/" (comps ++ [nm]))).1
      = (splitext_name nm).1 := by
    rw [hp1]
    show String.mk (afterLastSep '/' ((pre ++ ['/']) ++
        nm.data.take (nm.data.length - (splitext_name nm).2.data.length))) = _
    rw [show (pre ++ ['/']) ++
          nm.data.take (nm.data.length - (splitext_name nm).2.data.length)
        = pre ++ '/' ::
          nm.data.take (nm.data.length - (splitext_name nm).2.data.length) from by
      simp]
    rw [afterLastSep_append, afterLastSep_no_sep]
    · exact String.ext htake.symm
    · intro c hc
      exact hnm c (List.take_subset _ _ hc)
  simp only [get_asset_temp_path, hsep, hdata]
  rw [hbase1, ha]

theorem normalizeSeps_eq_self (s : String) (h : ∀ c ∈ s.data, c ≠ '\\') :
    normalizeSeps s = s := by
  unfold normalizeSeps
  have hmap : s.data.map (fun c => if c == '\\' then '/' else c) = s.data.map id := by
    apply List.map_congr_left
    intro c hc
    simp [h c hc]
  rw [hmap, List.map_id]

theorem get_asset_temp_path_fst (w : World) (asset_path : List String)
    (revision : String) :
    (get_asset_temp_path w asset_path revision).1 = [Ev.mkdtemp w.tmpDir] := rfl

theorem main_run_events_head (w : World) (git_root asset_path : List String)
    (ue_bin_path project_path : String) :
    (main_run w git_root asset_path ue_bin_path project_path).1.head?
      = some (Ev.runCapture ["git", "log", "--format=%h", "-n", "1",
          os_relpath w.sep git_root asset_path]) := by
  by_cases hz : pystrip w.logOutput = "" <;>
    simp [main_run, git_find_last_revision, hz]

/- ## Claim theorems -/

/-- C1 (amended): `find_entry_in_dir` traverses the tree depth-first, not
breadth-first: it examines all (non-`".git"`) entries of the directory at
hand before descending, then explores that directory's subdirectories
last-listed-first (the order induced by `list.pop()`), and returns the first
match in that depth-first order; in particular a match among the start
directory's own entries beats every deeper match, but a deeper match in a
later-listed subtree is returned in preference to a shallower match in an
earlier-listed sibling. -/
theorem searchDown_depth_first_eq_dfs (fs : List FSEntry)
    (pred : String → Bool → Bool) (start : List String) :
    find_entry_in_dir fs pred start = search_dfs pred start (entriesAt fs start) := by
  show find_entry_in_dir_loop pred [(start, entriesAt fs start)] = _
  rw [loop_eq_many, many_cons, many_nil]
  cases hq : search_dfs pred start (entriesAt fs start) <;> simp

/-- C1 (counterexample): the claim "a match at depth d is always returned in
preference to any match at depth greater than d" is false.  In the tree
`[A[t], B[C[t]]]` with the predicate "name is `t`", the entry `A/t` matches
at depth 2, yet the search returns `B/C/t` at depth 3, because the worklist
is popped from the end (depth-first), not from the front (breadth-first). -/
theorem searchDown_bfs_counterexample :
    find_entry_in_dir
        [FSEntry.dir "A" [FSEntry.file "t"],
         FSEntry.dir "B" [FSEntry.dir "C" [FSEntry.file "t"]]]
        (fun n _ => n == "t") [] = some ["B", "C", "t"] ∧
    entriesAt
        [FSEntry.dir "A" [FSEntry.file "t"],
         FSEntry.dir "B" [FSEntry.dir "C" [FSEntry.file "t"]]] ["A"]
      = [FSEntry.file "t"] ∧
    (["B", "C", "t"] : List String).length > (["A", "t"] : List String).length := by
  refine ⟨?_, by simp [entriesAt, FSEntry.name, FSEntry.isDirB, FSEntry.children], by simp⟩
  simp [find_entry_in_dir, find_entry_in_dir_loop, entriesAt,
    FSEntry.name, FSEntry.isDirB, FSEntry.children]

/-- C9: `SearchDown` never descends into a directory named `".git"`: for
every directory tree and every predicate, deleting every `".git"` entry
together with its whole subtree (`pruneL`) leaves the result of
`find_entry_in_dir` unchanged, so nothing inside such a directory is ever
examined or returned. -/
theorem searchDown_ignores_git_dirs (fs : List FSEntry)
    (pred : String → Bool → Bool) :
    find_entry_in_dir (pruneL fs) pred [] = find_entry_in_dir fs pred [] := by
  have h := loop_prune pred [([], fs)]
  simpa [find_entry_in_dir, entriesAt] using h

/-- C10: `find_entry_in_dir` filters out every entry named exactly `".git"`
- files as well as directories - before applying the predicate, so for every
predicate (even one satisfied by a `".git"` entry) it never returns a path
whose final component is `".git"`. -/
theorem searchDown_never_returns_git (fs : List FSEntry)
    (pred : String → Bool → Bool) (start : List String) (p : List String)
    (h : find_entry_in_dir fs pred start = some p) :
    p.getLast? ≠ some ".git" := by
  apply loop_last_bounded (stackSize [(start, entriesAt fs start)]) pred
    [(start, entriesAt fs start)] p le_rfl
  simpa [find_entry_in_dir] using h

/-- C10 (witness): on the listing `[".git", "x"]` with the always-true
predicate, the `".git"` file satisfies the predicate and is listed first,
yet the search returns `x`. -/
theorem searchDown_never_returns_git_witness :
    find_entry_in_dir [FSEntry.file ".git", FSEntry.file "x"]
        (fun _ _ => true) [] = some ["x"] ∧
    (["x"] : List String).getLast? ≠ some ".git" := by
  have hrun : find_entry_in_dir [FSEntry.file ".git", FSEntry.file "x"]
      (fun _ _ => true) [] = some ["x"] := by
    simp [find_entry_in_dir, find_entry_in_dir_loop, entriesAt,
      FSEntry.name, FSEntry.isDirB, FSEntry.children]
  exact ⟨hrun, searchDown_never_returns_git _ _ _ _ hrun⟩

/-- C3 (amended): when the downward search from `start_dir` fails,
`get_project_path` falls back to the upward search *from the same
`start_dir`* (the repository root it was called with), not from the current
working directory; it fails (`AnchorNotFound`) exactly when both searches
from that directory fail, and returns the downward result whenever that
exists. -/
theorem get_project_path_fallback_amended (fs : List FSEntry)
    (start_dir : List String) :
    get_project_path fs start_dir
      = orelse (find_entry_in_dir fs uproject_entry start_dir)
          (find_entry_in_dir_up fs uproject_entry start_dir) ∧
    (get_project_path fs start_dir = none ↔
      (find_entry_in_dir fs uproject_entry start_dir = none ∧
       find_entry_in_dir_up fs uproject_entry start_dir = none)) := by
  unfold get_project_path
  cases hq : find_entry_in_dir fs uproject_entry start_dir with
  | some p => simp [orelse]
  | none =>
    refine ⟨rfl, ?_⟩
    cases hu : find_entry_in_dir_up fs uproject_entry start_dir <;> simp

/-- C3 (counterexample): the claim that the fallback upward search starts
from the current working directory is false.  In the tree
`repo/.git/p.uproject`, with the working directory `repo/.git` (whose git
root, as computed by `find_git_root`, is `repo`), the code's
`get_project_path repo` fails, while the spec's described behaviour (upward
search from the working directory) finds a project descriptor. -/
theorem get_project_path_cwd_counterexample :
    find_git_root [FSEntry.dir "repo" [FSEntry.dir ".git" [FSEntry.file "p.uproject"]]]
        ["repo", ".git"] = some ["repo"] ∧
    get_project_path [FSEntry.dir "repo" [FSEntry.dir ".git" [FSEntry.file "p.uproject"]]]
        ["repo"] = none ∧
    get_project_path_spec [FSEntry.dir "repo" [FSEntry.dir ".git" [FSEntry.file "p.uproject"]]]
        ["repo"] ["repo", ".git"] = some ["repo", ".git"] := by
  refine ⟨?_, ?_, ?_⟩
  · simp [find_git_root, entriesAt, FSEntry.name, FSEntry.isDirB, FSEntry.children]
  · simp [get_project_path, find_entry_in_dir, find_entry_in_dir_loop,
      find_entry_in_dir_up, entriesAt, uproject_entry, pyendswith, charsPfx,
      FSEntry.name, FSEntry.isDirB, FSEntry.children]
  · simp [get_project_path_spec, find_entry_in_dir, find_entry_in_dir_loop,
      find_entry_in_dir_up, entriesAt, uproject_entry, pyendswith, charsPfx,
      FSEntry.name, FSEntry.isDirB, FSEntry.children]

/-- C2 (amended): `diff_normal` has no scoped cleanup.  When the diff tool
succeeds, the temporary *file* is unlinked but the `mkdtemp` *directory*
still exists afterwards; when the diff tool fails, `run_cmd`'s exception
propagates past the `os.unlink` call, so both the temporary file and the
temporary directory still exist. -/
theorem diff_normal_cleanup_amended (w : World) (git_root asset_path : List String)
    (revision ue_bin_path project_path : String)
    (hne : (get_asset_temp_path w asset_path revision).2 ≠ w.tmpDir) :
    (diff_normal w git_root asset_path revision ue_bin_path project_path).2
      = (if w.diffOk then none else some Err.toolFailed) ∧
    existsAfter
      (diff_normal w git_root asset_path revision ue_bin_path project_path).1
      w.tmpDir = true ∧
    existsAfter
      (diff_normal w git_root asset_path revision ue_bin_path project_path).1
      (get_asset_temp_path w asset_path revision).2 = !w.diffOk := by
  refine ⟨?_, ?_, ?_⟩
  · by_cases hok : w.diffOk <;> simp [diff_normal, hok]
  · by_cases hok : w.diffOk <;>
      simp [diff_normal, hok, existsAfter, get_asset_temp_path_fst,
        git_download_asset_revision, hne]
  · by_cases hok : w.diffOk <;>
      simp [diff_normal, hok, existsAfter, get_asset_temp_path_fst,
        git_download_asset_revision, hne, Ne.symm hne]

/-- C2 (counterexample): even when the diff tool succeeds, the claim that
the temporary directory no longer exists after the pipeline completes is
false: `diff_normal` unlinks only the temporary file and never removes the
`mkdtemp` directory. -/
theorem diff_normal_cleanup_counterexample :
    (diff_normal (World.mk "/" "abc" "" "" "" [1] (fun _ => false) true "/tmp/td")
        [] ["C", "f.uasset"] "abc" "ue" "pr").2 = none ∧
    existsAfter
      (diff_normal (World.mk "/" "abc" "" "" "" [1] (fun _ => false) true "/tmp/td")
        [] ["C", "f.uasset"] "abc" "ue" "pr").1 "/tmp/td" = true := by
  decide

/-- C2 (witness): a successful concrete run on which the amended claim's
conclusions evaluate: the temporary directory survives and the temporary
file is gone. -/
theorem diff_normal_cleanup_amended_witness :
    existsAfter
      (diff_normal (World.mk "/" "abc" "" "" "" [1] (fun _ => false) true "/tmp/td")
        [] ["C", "f.uasset"] "abc" "ue" "pr").1 "/tmp/td" = true ∧
    existsAfter
      (diff_normal (World.mk "/" "abc" "" "" "" [1] (fun _ => false) true "/tmp/td")
        [] ["C", "f.uasset"] "abc" "ue" "pr").1
      (get_asset_temp_path (World.mk "/" "abc" "" "" "" [1] (fun _ => false) true "/tmp/td")
        ["C", "f.uasset"] "abc").2 = false := by
  have h := diff_normal_cleanup_amended
    (World.mk "/" "abc" "" "" "" [1] (fun _ => false) true "/tmp/td")
    [] ["C", "f.uasset"] "abc" "ue" "pr" (by decide)
  exact ⟨h.2.1, by simpa using h.2.2⟩

/-- C4 (amended): the normalized repo-relative path (with backslashes
replaced by forward slashes) is what blob retrieval (`git show`), object
inspection and the LFS listing membership test receive, but the
revision-history lookup (`git log`) receives the bare `os.path.relpath`
output from `main` with *no* separator normalization; the two coincide
exactly when the relative path contains no backslash. -/
theorem vc_path_normalization_amended (w : World) (git_root asset_path : List String)
    (revision tmp_path ue_bin_path project_path : String) :
    (main_run w git_root asset_path ue_bin_path project_path).1.head?
      = some (Ev.runCapture ["git", "log", "--format=%h", "-n", "1",
          os_relpath w.sep git_root asset_path]) ∧
    (git_download_asset_revision w git_root asset_path revision tmp_path).head?
      = some (Ev.runCaptureBlob ["git", "show",
          revision ++ ":" ++ get_git_relative_asset_path w.sep git_root asset_path]) ∧
    ((∀ c ∈ (os_relpath w.sep git_root asset_path).data, c ≠ '\\') →
      os_relpath w.sep git_root asset_path
        = get_git_relative_asset_path w.sep git_root asset_path) := by
  refine ⟨main_run_events_head w git_root asset_path ue_bin_path project_path, rfl, ?_⟩
  intro h
  unfold get_git_relative_asset_path
  exact (normalizeSeps_eq_self _ h).symm

/-- C4 (counterexample): on a platform whose separator is a backslash,
`git log` receives `a\b` while the normalized repo-relative path used for
`git show` is `a/b` - the history lookup does not receive the normalized
form. -/
theorem vc_path_normalization_counterexample :
    (main_run (World.mk "\\" "abc" "" "" "" [] (fun _ => false) true "t")
        ["r"] ["r", "a", "b"] "ue" "pr").1.head?
      = some (Ev.runCapture ["git", "log", "--format=%h", "-n", "1", "a\\b"]) ∧
    get_git_relative_asset_path "\\" ["r"] ["r", "a", "b"] = "a/b" ∧
    ("a\\b" : String) ≠ "a/b" := by
  decide

/-- C4 (witness): on a forward-slash platform the two path forms coincide. -/
theorem vc_path_normalization_witness :
    os_relpath "/" ["r"] ["r", "a", "b"]
      = get_git_relative_asset_path "/" ["r"] ["r", "a", "b"] :=
  (vc_path_normalization_amended
    (World.mk "/" "" "" "" "" [] (fun _ => false) true "t")
    ["r"] ["r", "a", "b"] "rv" "tp" "ue" "pr").2.2 (by decide)

/-- C5: `git_is_lfs` is a pure function of the LFS listing text and the
normalized repo-relative path: it strips the fixed 13-character prefix from
every listing line, and answers `true` exactly when the repo-relative path
equals, as a whole string, one of the stripped lines - membership is
whole-string equality, never a substring or prefix match. -/
theorem git_is_lfs_exact_membership (w : World) (git_root asset_path : List String) :
    (git_is_lfs w git_root asset_path).2 = true ↔
      ∃ line ∈ splitlines w.lfsListOutput,
        pydrop 13 line = get_git_relative_asset_path w.sep git_root asset_path := by
  show (((splitlines w.lfsListOutput).map (fun l => pydrop 13 l)).contains
      (get_git_relative_asset_path w.sep git_root asset_path)) = true ↔ _
  constructor
  · intro hc
    obtain ⟨line, hl, he⟩ := List.mem_map.mp (List.elem_iff.mp hc)
    exact ⟨line, hl, he⟩
  · rintro ⟨line, hl, he⟩
    exact List.elem_iff.mpr (List.mem_map.mpr ⟨line, hl, he⟩)

/-- C6: in LFS mode the left-hand path is
`join(localMediaDir, oid[0:2], oid[2:4], oid)`; when that path is not an
existing regular file the run stops with `ObjectNotFound` and the produced
event trace contains no diff-tool invocation. -/
theorem diff_lfs_object_not_found (w : World) (git_root asset_path : List String)
    (revision ue_bin_path project_path : String) (m oid : String)
    (ms oids : List String)
    (hm : lfs_media_dir_matches w.lfsEnvOutput = m :: ms)
    (ho : asset_oid_matches w.oidOutput = oid :: oids)
    (hf : w.fileExists
        (os_path_join w.sep m [pytake 2 oid, pytake 2 (pydrop 2 oid), oid]) = false) :
    diff_lfs w git_root asset_path revision ue_bin_path project_path
      = ([Ev.runCapture ["git", "lfs", "env"],
          Ev.runCapture ["git", "cat-file", "-p",
            revision ++ ":" ++ get_git_relative_asset_path w.sep git_root asset_path],
          Ev.isFileCheck
            (os_path_join w.sep m [pytake 2 oid, pytake 2 (pydrop 2 oid), oid])],
         some Err.objectNotFound) := by
  simp [diff_lfs, hm, ho, hf]

/-- C6 (witness): with media dir `/lfs-cache` and hash `deadbeef`, the
resolved left path is `/lfs-cache/de/ad/deadbeef`; since it is not a file,
the run ends in `ObjectNotFound` with no diff-tool event. -/
theorem diff_lfs_object_not_found_witness :
    diff_lfs
        (World.mk "/" "" "" "LocalMediaDir=/lfs-cache" "oid sha256:deadbeef" []
          (fun _ => false) true "t")
        ["g"] ["g", "a.uasset"] "r1" "ue" "pr"
      = ([Ev.runCapture ["git", "lfs", "env"],
          Ev.runCapture ["git", "cat-file", "-p", "r1:a.uasset"],
          Ev.isFileCheck "/lfs-cache/de/ad/deadbeef"],
         some Err.objectNotFound) := by
  have h := diff_lfs_object_not_found
    (World.mk "/" "" "" "LocalMediaDir=/lfs-cache" "oid sha256:deadbeef" []
      (fun _ => false) true "t")
    ["g"] ["g", "a.uasset"] "r1" "ue" "pr" "/lfs-cache" "deadbeef" [] []
    (by decide) (by decide) rfl
  exact h.trans (by decide)

/-- C7: `git_find_last_revision` fails exactly when the whitespace-stripped
log output is empty, and in that case the whole pipeline stops with
`NoHistory` right after the `git log` call: the event trace is that single
command, with no temp-file creation, no write and no LFS path resolution. -/
theorem no_history_before_materialization (w : World)
    (git_root asset_path : List String) (ue_bin_path project_path : String) :
    (∀ s : String, (git_find_last_revision w s).2 = none ↔ pystrip w.logOutput = "") ∧
    (pystrip w.logOutput = "" →
      main_run w git_root asset_path ue_bin_path project_path
        = ([Ev.runCapture ["git", "log", "--format=%h", "-n", "1",
            os_relpath w.sep git_root asset_path]], some Err.noHistory)) := by
  constructor
  · intro s
    by_cases hz : pystrip w.logOutput = "" <;> simp [git_find_last_revision, hz]
  · intro hz
    simp [main_run, git_find_last_revision, hz]

/-- C7 (witness): whitespace-only log output on a concrete run. -/
theorem no_history_before_materialization_witness :
    main_run (World.mk "/" " \n " "" "" "" [] (fun _ => false) true "t")
        [] ["a"] "ue" "pr"
      = ([Ev.runCapture ["git", "log", "--format=%h", "-n", "1", "a"]],
         some Err.noHistory) := by
  have h := (no_history_before_materialization
    (World.mk "/" " \n " "" "" "" [] (fun _ => false) true "t")
    [] ["a"] "ue" "pr").2 (by decide)
  exact h.trans (by decide)

/-- C8: Inline materialization first creates a fresh temporary directory
(the `mkdtemp` event), names the temporary file
`<assetBaseName>_<revision><assetExtension>` inside it, and writes the bytes
returned by `git show` verbatim, so a read-back of the produced path yields
exactly the historical blob bytes. -/
theorem inline_materialization_roundtrip (w : World) (git_root comps : List String)
    (nm revision : String) (hsep : w.sep = "/") (hnm : ∀ c ∈ nm.data, c ≠ '/') :
    (get_asset_temp_path w (comps ++ [nm]) revision).1 = [Ev.mkdtemp w.tmpDir] ∧
    (get_asset_temp_path w (comps ++ [nm]) revision).2
      = os_join2 "/" w.tmpDir
          ((splitext_name nm).1 ++ "_" ++ revision ++ (splitext_name nm).2) ∧
    readAfter
      ((get_asset_temp_path w (comps ++ [nm]) revision).1 ++
        git_download_asset_revision w git_root (comps ++ [nm]) revision
          (get_asset_temp_path w (comps ++ [nm]) revision).2)
      (get_asset_temp_path w (comps ++ [nm]) revision).2 = some w.blob := by
  refine ⟨rfl, get_asset_temp_path_name w comps nm revision hsep hnm, ?_⟩
  simp [readAfter, get_asset_temp_path_fst, git_download_asset_revision]

/-- C8 (witness): asset `Content/Foo.uasset` at revision `abc1234` is
materialized as `<tmpdir>/Foo_abc1234.uasset` holding exactly the blob. -/
theorem inline_materialization_roundtrip_witness :
    (get_asset_temp_path
        (World.mk "/" "" "" "" "" [3, 1, 4] (fun _ => false) true "/tmp/td")
        (["Content"] ++ ["Foo.uasset"]) "abc1234").2
      = "/tmp/td/Foo_abc1234.uasset" ∧
    readAfter
      ((get_asset_temp_path
          (World.mk "/" "" "" "" "" [3, 1, 4] (fun _ => false) true "/tmp/td")
          (["Content"] ++ ["Foo.uasset"]) "abc1234").1 ++
        git_download_asset_revision
          (World.mk "/" "" "" "" "" [3, 1, 4] (fun _ => false) true "/tmp/td")
          [] (["Content"] ++ ["Foo.uasset"]) "abc1234"
          (get_asset_temp_path
            (World.mk "/" "" "" "" "" [3, 1, 4] (fun _ => false) true "/tmp/td")
            (["Content"] ++ ["Foo.uasset"]) "abc1234").2)
      (get_asset_temp_path
        (World.mk "/" "" "" "" "" [3, 1, 4] (fun _ => false) true "/tmp/td")
        (["Content"] ++ ["Foo.uasset"]) "abc1234").2 = some [3, 1, 4] := by
  have h := inline_materialization_roundtrip
    (World.mk "/" "" "" "" "" [3, 1, 4] (fun _ => false) true "/tmp/td")
    [] ["Content"] "Foo.uasset" "abc1234" rfl (by decide)
  exact ⟨h.2.1.trans (by decide), h.2.2⟩
